import Mathlib

set_option maxRecDepth 8000
set_option maxHeartbeats 1000000

namespace Midfactor

/-! Shallow embedding of the sentence-classification core of `src/test00.py`:
a matcher for the regex subset used by the tool's pattern lists (modelling
Python `re.search`), the pattern configuration (`PatternSet`) together with
the default patterns and the default concept dictionary, the per-sentence
classifier and context propagation of `analyze_text_with_context`, the
batch driver of `process_csv`, and the bracket decomposition of
`decompose_utterance`.  Text is modelled as `List Char` (Python strings are
sequences of code points); fallible operations (`re.search` on a raw,
possibly malformed pattern, which raises `re.error`) return `Except`. -/

/-- Characters removed by Python `str.strip()` with no argument
(the Unicode whitespace code points; `str.strip` removes every character
`c` with `c.isspace()`). -/
def pySpaceChars : List Char :=
  [' ', '\t', '\n', '\r', '\x0b', '\x0c',
   '\x1c', '\x1d', '\x1e', '\x1f', '\x85', '\xa0',
   ' ', ' ', ' ', ' ', ' ', ' ', ' ',
   ' ', ' ', ' ', ' ', ' ',
   ' ', ' ', ' ', ' ', '　']

/-- Python `c.isspace()` on the code points above. -/
def isPySpace (c : Char) : Bool := pySpaceChars.contains c

/-- Python `s.strip()`: remove leading and trailing whitespace. -/
def pstrip (s : List Char) : List Char :=
  ((s.dropWhile isPySpace).reverse.dropWhile isPySpace).reverse

/-- One atom of the regex subset appearing in the tool's pattern lists:
a literal character, a character class `[c1c2...]` (plain characters, no
ranges), or the digit class `\d`. -/
inductive Atom where
  | achr (c : Char)
  | acls (cs : List Char)
  | adig
deriving DecidableEq

/-- A regex token: an atom, optionally repeated with `+`. -/
structure RTok where
  atom : Atom
  many : Bool
deriving DecidableEq

/-- Python `\d` on the decimal-digit forms relevant to this application
(ASCII and full-width digits). -/
def isDig (c : Char) : Bool :=
  ('0' ≤ c && c ≤ '9') || ('０' ≤ c && c ≤ '９')

def atomMatch : Atom → Char → Bool
  | Atom.achr a, c => a == c
  | Atom.acls cs, c => cs.contains c
  | Atom.adig, c => isDig c

/-- Does the token list match some prefix of `s`?  `+` repetition is
resolved by backtracking (existence of a split), which agrees with
Python's backtracking engine on match existence. -/
def matchToks : List RTok → List Char → Bool
  | [], _ => true
  | ⟨_, false⟩ :: _, [] => false
  | ⟨a, false⟩ :: ts, d :: r => atomMatch a d && matchToks ts r
  | ⟨_, true⟩ :: _, [] => false
  | ⟨a, true⟩ :: ts, d :: r =>
      atomMatch a d &&
        (List.range (r.length + 1)).any fun k =>
          ((r.take k).all (atomMatch a)) && matchToks ts (r.drop k)

/-- The suffixes of `s`, in order of start position (including the empty
suffix at the end of the string). -/
def tailsL : List Char → List (List Char)
  | [] => [[]]
  | c :: rest => (c :: rest) :: tailsL rest

/-- Python `re.search(p, s) is not None` for a compiled token list: a match
may start at any position. -/
def research (toks : List RTok) (s : List Char) : Bool :=
  (tailsL s).any fun suf => matchToks toks suf

/-- Python `pat in s` (contiguous substring occurrence), used for the
concept-dictionary terms. -/
def subOcc (pat s : List Char) : Bool :=
  (tailsL s).any fun suf => pat.isPrefixOf suf

/-- Scan the body of a character class after `[` up to the closing `]`.
Fails (like `re.compile`) on an unterminated set. -/
def parseClass : List Char → Option (List Char × List Char)
  | [] => none
  | c :: rest =>
    if c = ']' then some ([], rest)
    else
      match parseClass rest with
      | some (cs, rem) => some (c :: cs, rem)
      | none => none

/-- Characters that are regex metacharacters outside the modelled subset;
a pattern using them is outside the model (treated as non-compiling). -/
def unsupportedMeta : List Char := ['+', '*', '?', '(', ')', '|', '^', '$', '.', '{', '}']

/-- Parser for the modelled regex subset (fuel-based so that it is
structurally recursive and kernel-computable).  Accepted: literal
characters, `[...]` classes of plain characters, `\d`, a trailing `+` on
any atom, and `\c` for non-alphanumeric `c` (a literal).  Rejected, like
`re.compile`: an unterminated class, a trailing backslash, an unknown
alphanumeric escape, a `+` with nothing to repeat. -/
def parsePatAux (op : Char) : Nat → List Char → Option (List RTok)
  | 0, _ => none
  | _, [] => some []
  | fuel + 1, c :: rest =>
    if c = '\\' then
      match rest with
      | [] => none
      | d :: rest2 =>
        if d = 'd' then
          match rest2 with
          | '+' :: rest3 => (parsePatAux op fuel rest3).map (List.cons ⟨Atom.adig, true⟩)
          | _ => (parsePatAux op fuel rest2).map (List.cons ⟨Atom.adig, false⟩)
        else if d.isAlphanum then none
        else
          match rest2 with
          | '+' :: rest3 => (parsePatAux op fuel rest3).map (List.cons ⟨Atom.achr d, true⟩)
          | _ => (parsePatAux op fuel rest2).map (List.cons ⟨Atom.achr d, false⟩)
    else if c = op then
      match parseClass rest with
      | some (cs, rest2) =>
        match rest2 with
        | '+' :: rest3 => (parsePatAux op fuel rest3).map (List.cons ⟨Atom.acls cs, true⟩)
        | _ => (parsePatAux op fuel rest2).map (List.cons ⟨Atom.acls cs, false⟩)
      | none => none
    else if unsupportedMeta.contains c then none
    else
      match rest with
      | '+' :: rest3 => (parsePatAux op fuel rest3).map (List.cons ⟨Atom.achr c, true⟩)
      | _ => (parsePatAux op fuel rest).map (List.cons ⟨Atom.achr c, false⟩)

/-- Python `re.compile` on the modelled subset: `some` is a successful
compilation, `none` a `re.error`. -/
def compile (p : String) : Option (List RTok) :=
  parsePatAux '[' (p.toList.length + 1) p.toList

/-- Python `re.search(pattern, s)` on a raw pattern string: compiles the
pattern on the fly and raises `re.error` (here: `Except.error` carrying
the pattern) when it is malformed, exactly as the unguarded calls in
`analyze_text_with_context` do. -/
def researchE (p : String) (s : List Char) : Except String Bool :=
  match compile p with
  | none => Except.error p
  | some toks => Except.ok (research toks s)

/-- The Boolean match result of a pattern that does compile
(`false` for a non-compiling pattern); used to state specifications. -/
def rmatch (p : String) (s : List Char) : Bool :=
  match compile p with
  | none => false
  | some toks => research toks s

/-- The token list of a pattern that is a plain literal string. -/
def litToks (p : String) : List RTok :=
  p.toList.map fun c => ⟨Atom.achr c, false⟩

/-- The mutable pattern configuration: ordered example regexes, the concept
dictionary (insertion-ordered categories, each with an ordered term list),
and ordered idea regexes. -/
structure PatternSet where
  examplePatterns : List String
  conceptDict : List (String × List String)
  ideaPatterns : List String

/-- The rhetorical category of one sentence. -/
inductive Category where
  | exampleCat
  | conceptCat
  | ideaCat
  | noneCat
deriving DecidableEq

/-- The bracket applied for a category (lines 132, 141, 151 of
`src/test00.py`): `[...]` example, `（...）` concept (full-width
parentheses), `〈...〉` idea, unchanged for none. -/
def wrapC : Category → List Char → List Char
  | Category.exampleCat, s => '[' :: (s ++ [']'])
  | Category.conceptCat, s => '（' :: (s ++ ['）'])
  | Category.ideaCat, s => '〈' :: (s ++ ['〉'])
  | Category.noneCat, s => s

/-- The `for pattern in ...: if re.search(pattern, sent_text): ... break`
loop: first match wins, a malformed pattern raises when reached. -/
def patLoopE : List String → List Char → Except String Bool
  | [], _ => Except.ok false
  | p :: ps, s =>
    match researchE p s with
    | Except.error e => Except.error e
    | Except.ok true => Except.ok true
    | Except.ok false => patLoopE ps s

/-- The concept-dictionary double loop (lines 138-145): any term of any
category occurring as a substring (plain `in`, no regex, so it cannot
raise); the first matching term breaks out of both loops. -/
def conceptHit (dict : List (String × List String)) (s : List Char) : Bool :=
  dict.any fun ct => ct.2.any fun t => subOcc t.toList s

/-- The per-sentence classification of lines 125-155: example patterns
first, then concept terms (only if no example pattern matched), then idea
patterns (only if neither matched), else no bracket. -/
def classifySentE (ps : PatternSet) (s : List Char) : Except String Category :=
  match patLoopE ps.examplePatterns s with
  | Except.error e => Except.error e
  | Except.ok true => Except.ok Category.exampleCat
  | Except.ok false =>
    if conceptHit ps.conceptDict s then Except.ok Category.conceptCat
    else
      match patLoopE ps.ideaPatterns s with
      | Except.error e => Except.error e
      | Except.ok true => Except.ok Category.ideaCat
      | Except.ok false => Except.ok Category.noneCat

/-- The `segments` list built by the first loop of
`analyze_text_with_context`: each sentence in its (possibly) bracketed
form. -/
def classifyAllE (ps : PatternSet) : List (List Char) → Except String (List (List Char))
  | [] => Except.ok []
  | s :: rest =>
    match classifySentE ps s with
    | Except.error e => Except.error e
    | Except.ok c =>
      match classifyAllE ps rest with
      | Except.error e => Except.error e
      | Except.ok segs => Except.ok (wrapC c s :: segs)

/-- `segment.startswith("[") or segment.startswith("（") or
segment.startswith("〈")` (line 163). -/
def startsGlyph : List Char → Bool
  | [] => false
  | c :: _ => c == '[' || c == '（' || c == '〈'

/-- The fixed idea-signal patterns of line 168 (`r"考え"`, `r"思い"`,
`r"アイデア"`, `r"提案"`), a broader set than `idea_patterns`. -/
def contextSignalPatterns : List String := ["考え", "思い", "アイデア", "提案"]

/-- `idea_context = any(re.search(pattern, segment) for pattern in [...])`
(line 168).  The four patterns are literal strings, so `re.search` cannot
raise here; matching a literal is substring occurrence. -/
def ideaSignal (seg : List Char) : Bool :=
  contextSignalPatterns.any fun p => research (litToks p) seg

/-- The context-propagation loop of lines 159-170: `i` is the running
index, the Boolean is `idea_context` (initialised to `false` by the
caller); an unbracketed segment following an idea-signalling one is
wrapped in `〈...〉`, and `idea_context` is recomputed on the (possibly
wrapped) segment. -/
def propAux : Nat → Bool → List (List Char) → List (List Char)
  | _, _, [] => []
  | i, ctx, seg :: rest =>
    let seg2 := if i != 0 && ctx && !startsGlyph seg then '〈' :: (seg ++ ['〉']) else seg
    seg2 :: propAux (i + 1) (ideaSignal seg2) rest

/-- The `result` list of `analyze_text_with_context` before joining:
classification followed by context propagation with `idea_context`
initialised to `false`. -/
def analyzeSegsE (ps : PatternSet) (sents : List (List Char)) :
    Except String (List (List Char)) :=
  match classifyAllE ps sents with
  | Except.error e => Except.error e
  | Except.ok segs => Except.ok (propAux 0 false segs)

def joinL : List (List Char) → List Char
  | [] => []
  | x :: rest => x ++ joinL rest

/-- `analyze_text_with_context` on an utterance, taking the sentence list
produced by the external spaCy splitter as input and returning
`"".join(result)`. -/
def analyzeE (ps : PatternSet) (sents : List (List Char)) : Except String (List Char) :=
  match analyzeSegsE ps sents with
  | Except.error e => Except.error e
  | Except.ok segs => Except.ok (joinL segs)

/-- `process_csv`: `df['発言内容'].apply(analyze_text_with_context)` — each
row (utterance, given as its sentence list) is analysed by one independent
call; an exception in any row propagates and aborts the whole batch. -/
def processBatchE (ps : PatternSet) : List (List (List Char)) → Except String (List (List Char))
  | [] => Except.ok []
  | r :: rs =>
    match analyzeE ps r with
    | Except.error e => Except.error e
    | Except.ok o =>
      match processBatchE ps rs with
      | Except.error e => Except.error e
      | Except.ok os => Except.ok (o :: os)

/-- The default concept dictionary (`default_concept_dict`, lines 33-55),
in insertion order. -/
def defaultConceptDict : List (String × List String) :=
  [("教科・単元・授業概念",
    ["数", "足し算", "引き算", "掛け算", "割り算", "方程式", "関数", "図形", "確率",
     "物語", "文章", "読解", "表現", "文法", "漢字", "文学", "詩",
     "実験", "観察", "生物", "化学", "物理", "地学", "元素", "反応", "エネルギー",
     "歴史", "地理", "政治", "経済", "文化", "社会", "国際", "環境",
     "単元", "授業", "学習", "教材", "カリキュラム"]),
   ("社会的概念",
    ["道徳", "正義", "権利", "責任", "平等", "自由", "尊重", "協力", "共生",
     "多様性", "持続可能性", "民主主義", "市民性", "グローバル", "地域", "伝統",
     "対話", "議論", "発表", "協力", "チームワーク", "意見", "合意形成"]),
   ("思考プロセス",
    ["考え", "アイデア", "仮説", "予想", "推測", "分析", "評価", "判断",
     "創造", "批判的思考", "問題解決", "メタ認知", "振り返り", "計画"])]

/-- The default example patterns (`example_patterns`, lines 61-77), in
declared order. -/
def defaultExamplePatterns : List String :=
  ["例えば[、,]", "たとえば[、,]", "具体的には", "具体例", "事例", "実例",
   "\\d+月\\d+日", "昨日", "先日", "先週", "今日", "明日", "午前", "午後",
   "〜時", "〜分", "〜年", "〜月", "〜日",
   "〜さんは", "〜くんは", "〜ちゃんは", "私は", "僕は", "わたしは", "ぼくは",
   "私の", "僕の", "わたしの", "ぼくの", "持っている", "買った", "もらった",
   "〜店", "〜屋", "〜館", "〜園", "〜公園", "〜学校", "〜駅", "〜市", "〜県",
   "〜町", "〜村", "〜地区", "〜センター",
   "\\d+個", "\\d+円", "\\d+人", "\\d+匹", "\\d+台", "\\d+本", "\\d+冊", "\\d+回",
   "行った", "見た", "聞いた", "感じた", "体験", "経験", "やってみた", "試した"]

/-- The default idea patterns (`idea_patterns`, lines 80-94), in declared
order. -/
def defaultIdeaPatterns : List String :=
  ["思います", "考えます", "感じます", "だと思う", "ではないか", "かもしれない",
   "だろう", "でしょう", "ようだ", "みたいだ", "らしい", "っぽい",
   "したい", "欲しい", "希望", "願い", "夢", "目標", "理想", "期待",
   "アイデア", "提案", "案", "方法", "やり方", "工夫", "改善", "解決策",
   "嬉しい", "悲しい", "楽しい", "面白い", "怖い", "不安", "心配", "安心",
   "意見", "考え", "見解", "立場", "視点", "観点", "主張", "賛成", "反対",
   "もし", "仮に", "たら", "れば", "なら", "とすれば", "と仮定すると"]

/-- The pattern configuration the application starts with. -/
def defaultPatternSet : PatternSet :=
  ⟨defaultExamplePatterns, defaultConceptDict, defaultIdeaPatterns⟩

/-- Non-greedy bracket-content scan: the body of a `(.*?)` group between an
opening glyph and the next closing glyph `cl`.  `.` does not match a
newline in Python, so the scan fails if `'\n'` (or the end of the string)
is reached before `cl`; on success it returns the content and the text
after the closing glyph. -/
def scanContent (cl : Char) : List Char → Option (List Char × List Char)
  | [] => none
  | c :: rest =>
    if c = cl then some ([], rest)
    else if c = '\n' then none
    else
      match scanContent cl rest with
      | some (content, rem) => some (c :: content, rem)
      | none => none

/-- `re.findall(op + "(.*?)" + cl, s)` (fuel-based for structural
recursion): scan left to right; at each opening glyph try the non-greedy
span, on success emit its content and continue after the span, on failure
continue at the next character. -/
def findAllAux (op cl : Char) : Nat → List Char → List (List Char)
  | 0, _ => []
  | _, [] => []
  | fuel + 1, c :: rest =>
    if c = op then
      match scanContent cl rest with
      | some (content, rem) => content :: findAllAux op cl fuel rem
      | none => findAllAux op cl fuel rest
    else findAllAux op cl fuel rest

/-- `re.findall` for one bracket pair, as used in `decompose_utterance`
(lines 240, 246, 252). -/
def findAllB (op cl : Char) (s : List Char) : List (List Char) :=
  findAllAux op cl s.length s

/-- Python `s.replace(pat, "", 1)`: remove the first (leftmost) occurrence
of `pat`, if any. -/
def replaceFirst (pat : List Char) : List Char → List Char
  | [] => []
  | c :: rest =>
    if pat.isPrefixOf (c :: rest) then List.drop pat.length (c :: rest)
    else c :: replaceFirst pat rest

/-- The removal loop of `decompose_utterance`: for each found content `m`,
remove the first occurrence of the re-delimited span `op ++ m ++ cl` from
the working text. -/
def removeAll (op cl : Char) (ms : List (List Char)) (t : List Char) : List Char :=
  ms.foldl (fun acc m => replaceFirst (op :: (m ++ [cl])) acc) t

/-- Example spans found in the input text (line 240). -/
def exMatches (t : List Char) : List (List Char) := findAllB '[' ']' t

/-- The working text after removing the example spans (lines 241-243). -/
def rem1 (t : List Char) : List Char := removeAll '[' ']' (exMatches t) t

/-- Concept spans found in the remaining text (line 246). -/
def coMatches (t : List Char) : List (List Char) := findAllB '（' '）' (rem1 t)

/-- The working text after also removing the concept spans (lines 247-249). -/
def rem2 (t : List Char) : List Char := removeAll '（' '）' (coMatches t) (rem1 t)

/-- Idea spans found in the remaining text (line 252). -/
def idMatches (t : List Char) : List (List Char) := findAllB '〈' '〉' (rem2 t)

/-- The remaining text after all three extractions (lines 253-255). -/
def rem3 (t : List Char) : List Char := removeAll '〈' '〉' (idMatches t) (rem2 t)

/-- The per-category content lists produced by `decompose_utterance`:
`例示` (example), `概念` (concept), `構想` (idea), `その他` (other). -/
structure Decomposed where
  exampleTexts : List (List Char)
  concepts : List (List Char)
  ideas : List (List Char)
  others : List (List Char)
deriving DecidableEq

/-- `decompose_utterance` (lines 221-261).  Every operation in its Python
body (`re.findall` with the three fixed, valid patterns, `str.replace`,
`str.strip`) is total, so the embedding is a total function. -/
def decompose (t : List Char) : Decomposed :=
  ⟨exMatches t, coMatches t, idMatches t,
   if pstrip (rem3 t) = [] then [] else [pstrip (rem3 t)]⟩

/-- A string free of the six bracket glyphs. -/
def glyphChars : List Char := ['[', ']', '（', '）', '〈', '〉']

def glyphFree (s : List Char) : Bool := s.all fun c => !glyphChars.contains c

def nlFree (s : List Char) : Bool := s.all fun c => c != '\n'

/-- Specification-side restatement of the classifier as a pure function:
used to compare the code's loop structure with the spec's description
(first any-match on example patterns, then concept terms, then idea
patterns). -/
def classifyPure (ps : PatternSet) (s : List Char) : Category :=
  if ps.examplePatterns.any fun p => rmatch p s then Category.exampleCat
  else if conceptHit ps.conceptDict s then Category.conceptCat
  else if ps.ideaPatterns.any fun p => rmatch p s then Category.ideaCat
  else Category.noneCat

/-- The category (rather than the bracketed text) of each sentence under
stage-one classification. -/
def classifyCatsE (ps : PatternSet) : List (List Char) → Except String (List Category)
  | [] => Except.ok []
  | s :: rest =>
    match classifySentE ps s with
    | Except.error e => Except.error e
    | Except.ok c =>
      match classifyCatsE ps rest with
      | Except.error e => Except.error e
      | Except.ok cs => Except.ok (c :: cs)

/-- Category-level image of the context-propagation loop: a `noneCat`
sentence following an idea-signalling segment is upgraded to `ideaCat`;
the signal is recomputed on the (possibly wrapped) segment text, exactly
as `propAux` does on the segment strings. -/
def upgradeCats : Nat → Bool → List (Category × List Char) → List Category
  | _, _, [] => []
  | i, ctx, (c, s) :: rest =>
    let c2 := if i != 0 && ctx && (c == Category.noneCat) then Category.ideaCat else c
    c2 :: upgradeCats (i + 1) (ideaSignal (wrapC c2 s)) rest

/-- The final category of every sentence of an utterance (classification
plus context propagation), the specification-level description whose
rendering the code's string pipeline is proved to refine. -/
def finalCatsE (ps : PatternSet) (sents : List (List Char)) : Except String (List Category) :=
  match classifyCatsE ps sents with
  | Except.error e => Except.error e
  | Except.ok cs => Except.ok (upgradeCats 0 false (cs.zip sents))

/-- The sentences carrying a given final category, in utterance order. -/
def selectCat (c : Category) (cats : List Category) (sents : List (List Char)) :
    List (List Char) :=
  ((cats.zip sents).filter fun p => p.1 == c).map Prod.snd

/-- A sequence of segments for one bracket pair: a flagged entry `(true, s)`
is the bracketed span `op ++ s ++ cl`, an unflagged entry `(false, w)` is
raw text.  Used to analyse `findAllB`/`removeAll` on bracketer output. -/
def segsJoin (op cl : Char) : List (Bool × List Char) → List Char
  | [] => []
  | (true, s) :: rest => op :: (s ++ cl :: segsJoin op cl rest)
  | (false, w) :: rest => w ++ segsJoin op cl rest

/-- The bracketed spans of a flagged segment list, in order. -/
def flaggedOf : List (Bool × List Char) → List (List Char) :=
  List.filterMap fun p => if p.1 then some p.2 else none

/-- The raw (unflagged) segments of a flagged segment list, in order. -/
def unflaggedOf : List (Bool × List Char) → List (List Char) :=
  List.filterMap fun p => if p.1 then none else some p.2

theorem scanContent_eq_some (cl : Char) :
    ∀ (s content rem : List Char), scanContent cl s = some (content, rem) →
      s = content ++ cl :: rem ∧ ∀ c ∈ content, c ≠ cl ∧ c ≠ '\n' := by
  intro s
  induction s with
  | nil => intro content rem h; simp [scanContent] at h
  | cons c rest ih =>
    intro content rem h
    by_cases hc : c = cl
    · simp [scanContent, hc] at h
      obtain ⟨h1, h2⟩ := h
      subst h1; subst h2; subst hc
      simp
    · by_cases hn : c = '\n'
      · simp only [scanContent, if_neg hc, if_pos hn] at h
        exact Option.noConfusion h
      · simp only [scanContent, if_neg hc, if_neg hn] at h
        cases hrec : scanContent cl rest with
        | none => rw [hrec] at h; simp at h
        | some pr =>
          obtain ⟨ct, rm⟩ := pr
          rw [hrec] at h; simp at h
          obtain ⟨h1, h2⟩ := h
          obtain ⟨ih1, ih2⟩ := ih ct rm hrec
          subst h1; subst h2
          constructor
          · rw [ih1]; simp
          · intro x hx
            rcases List.mem_cons.mp hx with hx | hx
            · subst hx; exact ⟨hc, hn⟩
            · exact ih2 x hx

theorem scanContent_complete (cl : Char) :
    ∀ (content rem : List Char), (∀ c ∈ content, c ≠ cl ∧ c ≠ '\n') →
      scanContent cl (content ++ cl :: rem) = some (content, rem) := by
  intro content
  induction content with
  | nil => intro rem _; simp [scanContent]
  | cons c ct ih =>
    intro rem h
    have hc : c ≠ cl := (h c (List.mem_cons_self c ct)).1
    have hn : c ≠ '\n' := (h c (List.mem_cons_self c ct)).2
    have hrest : ∀ x ∈ ct, x ≠ cl ∧ x ≠ '\n' := fun x hx => h x (List.mem_cons_of_mem c hx)
    show scanContent cl (c :: (ct ++ cl :: rem)) = some (c :: ct, rem)
    simp only [scanContent, if_neg hc, if_neg hn]
    rw [ih rem hrest]

theorem findAllAux_nil (op cl : Char) (f : Nat) : findAllAux op cl f [] = [] := by
  cases f <;> rfl

theorem findAllAux_congr (op cl : Char) :
    ∀ (f g : Nat) (s : List Char), s.length ≤ f → s.length ≤ g →
      findAllAux op cl f s = findAllAux op cl g s := by
  intro f
  induction f with
  | zero =>
    intro g s hf _
    have hs : s = [] := List.eq_nil_of_length_eq_zero (Nat.le_zero.mp hf)
    subst hs
    rw [findAllAux_nil, findAllAux_nil]
  | succ f ih =>
    intro g s hf hg
    cases s with
    | nil => rw [findAllAux_nil, findAllAux_nil]
    | cons c rest =>
      cases g with
      | zero => simp at hg
      | succ g' =>
        simp only [findAllAux]
        have hr : rest.length ≤ f := by simp at hf; omega
        have hr' : rest.length ≤ g' := by simp at hg; omega
        by_cases hc : c = op
        · simp only [if_pos hc]
          cases hscan : scanContent cl rest with
          | none => exact ih g' rest hr hr'
          | some pr =>
            obtain ⟨content, rem⟩ := pr
            have hdec := (scanContent_eq_some cl rest content rem hscan).1
            have hlen : rem.length ≤ rest.length := by
              rw [hdec]; simp; omega
            exact congrArg _ (ih g' rem (le_trans hlen hr) (le_trans hlen hr'))
        · simp only [if_neg hc]
          exact ih g' rest hr hr'

theorem findAllB_nil (op cl : Char) : findAllB op cl [] = [] := rfl

theorem findAllB_cons (op cl c : Char) (rest : List Char) :
    findAllB op cl (c :: rest) =
      if c = op then
        match scanContent cl rest with
        | some (content, rem) => content :: findAllB op cl rem
        | none => findAllB op cl rest
      else findAllB op cl rest := by
  show findAllAux op cl (rest.length + 1) (c :: rest) = _
  simp only [findAllAux]
  by_cases hc : c = op
  · simp only [if_pos hc]
    cases hscan : scanContent cl rest with
    | none => rfl
    | some pr =>
      obtain ⟨content, rem⟩ := pr
      have hdec := (scanContent_eq_some cl rest content rem hscan).1
      have hlen : rem.length ≤ rest.length := by rw [hdec]; simp; omega
      exact congrArg _ (findAllAux_congr op cl rest.length rem.length rem hlen le_rfl)
  · simp only [if_neg hc]
    rfl

theorem isPrefixOf_append_self : ∀ (p t : List Char), p.isPrefixOf (p ++ t) = true := by
  intro p t
  induction p with
  | nil => cases t <;> rfl
  | cons c p' ih => simp [List.isPrefixOf, ih]

theorem drop_len_append : ∀ (p t : List Char), List.drop p.length (p ++ t) = t := by
  intro p t
  induction p with
  | nil => rfl
  | cons c p' ih => simpa using ih

theorem replaceFirst_prefix (p t : List Char) (hp : p ≠ []) :
    replaceFirst p (p ++ t) = t := by
  cases p with
  | nil => exact absurd rfl hp
  | cons a p' =>
    have h1 : (a :: p').isPrefixOf (a :: (p' ++ t)) = true := by
      simpa using isPrefixOf_append_self (a :: p') t
    have h2 : List.drop (a :: p').length (a :: (p' ++ t)) = t := by
      simpa using drop_len_append (a :: p') t
    show replaceFirst (a :: p') (a :: (p' ++ t)) = t
    simp only [replaceFirst, if_pos h1]
    exact h2

theorem replaceFirst_skip (op : Char) (p t : List Char) :
    ∀ (w : List Char), (∀ c ∈ w, c ≠ op) →
      replaceFirst (op :: p) (w ++ t) = w ++ replaceFirst (op :: p) t := by
  intro w
  induction w with
  | nil => intro _; rfl
  | cons c w' ih =>
    intro hw
    have hc : c ≠ op := hw c (List.mem_cons_self c w')
    have hpre : ¬ ((op :: p).isPrefixOf (c :: (w' ++ t)) = true) := by
      simp only [List.isPrefixOf, Bool.and_eq_true, beq_iff_eq]
      intro h
      exact absurd h.1.symm hc
    show replaceFirst (op :: p) (c :: (w' ++ t)) = c :: (w' ++ replaceFirst (op :: p) t)
    simp only [replaceFirst, if_neg hpre, List.cons.injEq, true_and]
    exact ih fun x hx => hw x (List.mem_cons_of_mem c hx)

theorem removeAll_nil (op cl : Char) (t : List Char) : removeAll op cl [] t = t := rfl

theorem removeAll_cons (op cl : Char) (m : List Char) (ms : List (List Char)) (t : List Char) :
    removeAll op cl (m :: ms) t = removeAll op cl ms (replaceFirst (op :: (m ++ [cl])) t) := rfl

theorem removeAll_skip (op cl : Char) :
    ∀ (ms : List (List Char)) (w t : List Char), (∀ c ∈ w, c ≠ op) →
      removeAll op cl ms (w ++ t) = w ++ removeAll op cl ms t := by
  intro ms
  induction ms with
  | nil => intro w t _; rfl
  | cons m ms' ih =>
    intro w t hw
    rw [removeAll_cons, replaceFirst_skip op (m ++ [cl]) t w hw, ih w _ hw, removeAll_cons]

theorem findAllB_skip (op cl : Char) :
    ∀ (w r : List Char), (∀ c ∈ w, c ≠ op) → findAllB op cl (w ++ r) = findAllB op cl r := by
  intro w
  induction w with
  | nil => intro r _; rfl
  | cons c w' ih =>
    intro r hw
    have hc : c ≠ op := hw c (List.mem_cons_self c w')
    show findAllB op cl (c :: (w' ++ r)) = findAllB op cl r
    rw [findAllB_cons, if_neg hc]
    exact ih r fun x hx => hw x (List.mem_cons_of_mem c hx)

theorem segsJoin_findAll (op cl : Char) :
    ∀ (L : List (Bool × List Char)),
      (∀ p ∈ L, p.1 = true → ∀ c ∈ p.2, c ≠ cl ∧ c ≠ '\n') →
      (∀ p ∈ L, p.1 = false → ∀ c ∈ p.2, c ≠ op) →
      findAllB op cl (segsJoin op cl L) = flaggedOf L := by
  intro L
  induction L with
  | nil => intro _ _; rfl
  | cons b rest ih =>
    intro h1 h2
    have h1' : ∀ p ∈ rest, p.1 = true → ∀ c ∈ p.2, c ≠ cl ∧ c ≠ '\n' :=
      fun p hp => h1 p (List.mem_cons_of_mem b hp)
    have h2' : ∀ p ∈ rest, p.1 = false → ∀ c ∈ p.2, c ≠ op :=
      fun p hp => h2 p (List.mem_cons_of_mem b hp)
    obtain ⟨flag, s⟩ := b
    cases flag with
    | true =>
      have hs : ∀ c ∈ s, c ≠ cl ∧ c ≠ '\n' :=
        h1 (true, s) (List.mem_cons_self _ _) rfl
      show findAllB op cl (op :: (s ++ cl :: segsJoin op cl rest)) = flaggedOf ((true, s) :: rest)
      rw [findAllB_cons, if_pos rfl, scanContent_complete cl s (segsJoin op cl rest) hs]
      exact congrArg (List.cons s) (ih h1' h2')
    | false =>
      have hs : ∀ c ∈ s, c ≠ op := h2 (false, s) (List.mem_cons_self _ _) rfl
      show findAllB op cl (s ++ segsJoin op cl rest) = flaggedOf ((false, s) :: rest)
      rw [findAllB_skip op cl s (segsJoin op cl rest) hs]
      exact ih h1' h2'

theorem segsJoin_remove (op cl : Char) :
    ∀ (L : List (Bool × List Char)),
      (∀ p ∈ L, p.1 = true → ∀ c ∈ p.2, c ≠ cl ∧ c ≠ '\n') →
      (∀ p ∈ L, p.1 = false → ∀ c ∈ p.2, c ≠ op) →
      removeAll op cl (flaggedOf L) (segsJoin op cl L) = joinL (unflaggedOf L) := by
  intro L
  induction L with
  | nil => intro _ _; rfl
  | cons b rest ih =>
    intro h1 h2
    have h1' : ∀ p ∈ rest, p.1 = true → ∀ c ∈ p.2, c ≠ cl ∧ c ≠ '\n' :=
      fun p hp => h1 p (List.mem_cons_of_mem b hp)
    have h2' : ∀ p ∈ rest, p.1 = false → ∀ c ∈ p.2, c ≠ op :=
      fun p hp => h2 p (List.mem_cons_of_mem b hp)
    obtain ⟨flag, s⟩ := b
    cases flag with
    | true =>
      show removeAll op cl (s :: flaggedOf rest) (op :: (s ++ cl :: segsJoin op cl rest)) =
        joinL (unflaggedOf rest)
      have hsplit : op :: (s ++ cl :: segsJoin op cl rest) =
          (op :: (s ++ [cl])) ++ segsJoin op cl rest := by simp
      rw [removeAll_cons, hsplit,
        replaceFirst_prefix (op :: (s ++ [cl])) (segsJoin op cl rest) (by simp)]
      exact ih h1' h2'
    | false =>
      have hs : ∀ c ∈ s, c ≠ op := h2 (false, s) (List.mem_cons_self _ _) rfl
      show removeAll op cl (flaggedOf rest) (s ++ segsJoin op cl rest) =
        joinL ((false, s).2 :: unflaggedOf rest)
      rw [removeAll_skip op cl (flaggedOf rest) s (segsJoin op cl rest) hs]
      exact congrArg (s ++ ·) (ih h1' h2')

theorem segsJoin_eq_joinL (op cl : Char) :
    ∀ (L : List (Bool × List Char)),
      segsJoin op cl L = joinL (L.map fun b => if b.1 then op :: (b.2 ++ [cl]) else b.2) := by
  intro L
  induction L with
  | nil => rfl
  | cons b rest ih =>
    obtain ⟨flag, s⟩ := b
    cases flag with
    | true =>
      show op :: (s ++ cl :: segsJoin op cl rest) = (op :: (s ++ [cl])) ++ _
      rw [ih]
      simp
    | false =>
      show s ++ segsJoin op cl rest = s ++ _
      rw [ih]

theorem filterMap_if {α β : Type} (q : α → Bool) (g : α → β) :
    ∀ (l : List α),
      (l.filterMap fun a => if q a then some (g a) else none) = (l.filter q).map g := by
  intro l
  induction l with
  | nil => rfl
  | cons a l' ih =>
    by_cases hq : q a
    · simp [List.filterMap_cons, List.filter_cons, hq, ih]
    · simp [List.filterMap_cons, List.filter_cons, hq, ih]

theorem filterMap_ifnot {α β : Type} (q : α → Bool) (g : α → β) :
    ∀ (l : List α),
      (l.filterMap fun a => if q a then none else some (g a)) =
        (l.filter fun a => !q a).map g := by
  intro l
  induction l with
  | nil => rfl
  | cons a l' ih =>
    by_cases hq : q a
    · simp [List.filterMap_cons, List.filter_cons, hq, ih]
    · simp [List.filterMap_cons, List.filter_cons, hq, ih]

theorem glyphFree_mem {s : List Char} (hs : glyphFree s = true) :
    ∀ c ∈ s, c ≠ '[' ∧ c ≠ ']' ∧ c ≠ '（' ∧ c ≠ '）' ∧ c ≠ '〈' ∧ c ≠ '〉' := by
  intro c hc
  have h := List.all_eq_true.mp hs c hc
  simp only [glyphChars, Bool.not_eq_true', List.elem_eq_mem, List.mem_cons,
    List.mem_singleton, Bool.decide_or, Bool.or_eq_false_iff, decide_eq_false_iff_not] at h
  exact ⟨h.1, h.2.1, h.2.2.1, h.2.2.2.1, h.2.2.2.2.1, h.2.2.2.2.2.1⟩

theorem nlFree_mem {s : List Char} (hs : nlFree s = true) : ∀ c ∈ s, c ≠ '\n' := by
  intro c hc
  have h := List.all_eq_true.mp hs c hc
  simpa using h

theorem startsGlyph_wrap (c : Category) (s : List Char) (hs : glyphFree s = true) :
    startsGlyph (wrapC c s) = (c != Category.noneCat) := by
  cases c with
  | exampleCat => rfl
  | conceptCat => rfl
  | ideaCat => rfl
  | noneCat =>
    cases s with
    | nil => rfl
    | cons x rest =>
      have hx := glyphFree_mem hs x (List.mem_cons_self x rest)
      show (x == '[' || x == '（' || x == '〈') = false
      simp [hx.1, hx.2.2.1, hx.2.2.2.2.1]

theorem wrapC_inj (c c' : Category) (s : List Char) (hs : glyphFree s = true)
    (h : wrapC c s = wrapC c' s) : c = c' := by
  have hlen : ∀ (g1 g2 : Char), ¬ (g1 :: (s ++ [g2]) = s) := by
    intro g1 g2 hcontra
    have := congrArg List.length hcontra
    simp at this
    omega
  cases c <;> cases c' <;> first
    | rfl
    | (injection h with h1 h2; exact absurd h1 (by decide))
    | (exact absurd h (hlen _ _))
    | (exact absurd h.symm (hlen _ _))

theorem propAux_wrap :
    ∀ (cs : List Category) (sents : List (List Char)) (i : Nat) (b : Bool),
      (∀ s ∈ sents, glyphFree s = true) →
      propAux i b (List.zipWith wrapC cs sents) =
        List.zipWith wrapC (upgradeCats i b (cs.zip sents)) sents := by
  intro cs
  induction cs with
  | nil => intro sents i b _; rfl
  | cons c cs' ih =>
    intro sents i b hg
    cases sents with
    | nil => rfl
    | cons s rest =>
      have hs : glyphFree s = true := hg s (List.mem_cons_self s rest)
      have hrest : ∀ x ∈ rest, glyphFree x = true :=
        fun x hx => hg x (List.mem_cons_of_mem s hx)
      have hcond : (i != 0 && b && !startsGlyph (wrapC c s)) =
          (i != 0 && b && (c == Category.noneCat)) := by
        rw [startsGlyph_wrap c s hs]
        cases c <;> rfl
      show propAux i b (wrapC c s :: List.zipWith wrapC cs' rest) =
        List.zipWith wrapC (upgradeCats i b ((c, s) :: cs'.zip rest)) (s :: rest)
      simp only [propAux, upgradeCats, hcond]
      by_cases hC : (i != 0 && b && (c == Category.noneCat)) = true
      · have hc : c = Category.noneCat := by
          have := (Bool.and_eq_true _ _).mp hC
          exact eq_of_beq this.2
        subst hc
        rw [if_pos hC, if_pos hC]
        simp only [wrapC]
        exact congrArg _ (ih rest (i + 1) (ideaSignal ('〈' :: (s ++ ['〉']))) hrest)
      · simp only [if_neg hC]
        exact congrArg _ (ih rest (i + 1) (ideaSignal (wrapC c s)) hrest)

theorem classifyAllE_eq (ps : PatternSet) :
    ∀ (sents : List (List Char)),
      classifyAllE ps sents =
        (classifyCatsE ps sents).map fun cs => List.zipWith wrapC cs sents := by
  intro sents
  induction sents with
  | nil => rfl
  | cons s rest ih =>
    cases hcs : classifySentE ps s with
    | error e => simp [classifyAllE, classifyCatsE, hcs, Except.map]
    | ok c =>
      cases hrec : classifyCatsE ps rest with
      | error e =>
        rw [hrec] at ih
        simp [classifyAllE, classifyCatsE, hcs, hrec, ih, Except.map]
      | ok cs =>
        rw [hrec] at ih
        simp [classifyAllE, classifyCatsE, hcs, hrec, ih, Except.map]

theorem classifyCatsE_length (ps : PatternSet) :
    ∀ (sents : List (List Char)) (cs : List Category),
      classifyCatsE ps sents = Except.ok cs → cs.length = sents.length := by
  intro sents
  induction sents with
  | nil => intro cs h; simp [classifyCatsE] at h; subst h; rfl
  | cons s rest ih =>
    intro cs h
    simp only [classifyCatsE] at h
    cases hcs : classifySentE ps s with
    | error e => rw [hcs] at h; exact Except.noConfusion h
    | ok c =>
      rw [hcs] at h
      cases hrec : classifyCatsE ps rest with
      | error e => rw [hrec] at h; exact Except.noConfusion h
      | ok cs' =>
        rw [hrec] at h
        have : c :: cs' = cs := by
          have := h
          injection this
        subst this
        simp [ih cs' hrec]

theorem upgradeCats_length :
    ∀ (L : List (Category × List Char)) (i : Nat) (b : Bool),
      (upgradeCats i b L).length = L.length := by
  intro L
  induction L with
  | nil => intro i b; rfl
  | cons p rest ih =>
    intro i b
    obtain ⟨c, s⟩ := p
    simp only [upgradeCats, List.length_cons]
    rw [ih]

theorem glyphFree_ne {s : List Char} (hs : glyphFree s = true) {g : Char}
    (hg : g ∈ glyphChars) : ∀ c ∈ s, c ≠ g := by
  intro c hc
  have h := glyphFree_mem hs c hc
  simp only [glyphChars, List.mem_cons, List.not_mem_nil, or_false] at hg
  rcases hg with h1 | h1 | h1 | h1 | h1 | h1 <;> subst h1
  · exact h.1
  · exact h.2.1
  · exact h.2.2.1
  · exact h.2.2.2.1
  · exact h.2.2.2.2.1
  · exact h.2.2.2.2.2

theorem wrap_ne_exOpen (c : Category) (s : List Char) (hc : c ≠ Category.exampleCat)
    (hs : glyphFree s = true) : ∀ x ∈ wrapC c s, x ≠ '[' := by
  intro x hx
  cases c with
  | exampleCat => exact absurd rfl hc
  | conceptCat =>
    simp only [wrapC, List.mem_cons, List.mem_append, List.not_mem_nil, or_false] at hx
    rcases hx with h | h | h
    · subst h; decide
    · exact (glyphFree_mem hs x h).1
    · subst h; decide
  | ideaCat =>
    simp only [wrapC, List.mem_cons, List.mem_append, List.not_mem_nil, or_false] at hx
    rcases hx with h | h | h
    · subst h; decide
    · exact (glyphFree_mem hs x h).1
    · subst h; decide
  | noneCat => exact (glyphFree_mem hs x hx).1

theorem wrap_ne_coOpen (c : Category) (s : List Char) (hc : c ≠ Category.conceptCat)
    (hs : glyphFree s = true) : ∀ x ∈ wrapC c s, x ≠ '（' := by
  intro x hx
  cases c with
  | conceptCat => exact absurd rfl hc
  | exampleCat =>
    simp only [wrapC, List.mem_cons, List.mem_append, List.not_mem_nil, or_false] at hx
    rcases hx with h | h | h
    · subst h; decide
    · exact (glyphFree_mem hs x h).2.2.1
    · subst h; decide
  | ideaCat =>
    simp only [wrapC, List.mem_cons, List.mem_append, List.not_mem_nil, or_false] at hx
    rcases hx with h | h | h
    · subst h; decide
    · exact (glyphFree_mem hs x h).2.2.1
    · subst h; decide
  | noneCat => exact (glyphFree_mem hs x hx).2.2.1

theorem wrap_ne_idOpen (c : Category) (s : List Char) (hc : c ≠ Category.ideaCat)
    (hs : glyphFree s = true) : ∀ x ∈ wrapC c s, x ≠ '〈' := by
  intro x hx
  cases c with
  | ideaCat => exact absurd rfl hc
  | exampleCat =>
    simp only [wrapC, List.mem_cons, List.mem_append, List.not_mem_nil, or_false] at hx
    rcases hx with h | h | h
    · subst h; decide
    · exact (glyphFree_mem hs x h).2.2.2.2.1
    · subst h; decide
  | conceptCat =>
    simp only [wrapC, List.mem_cons, List.mem_append, List.not_mem_nil, or_false] at hx
    rcases hx with h | h | h
    · subst h; decide
    · exact (glyphFree_mem hs x h).2.2.2.2.1
    · subst h; decide
  | noneCat => exact (glyphFree_mem hs x hx).2.2.2.2.1

/-- The flagged-segment view of a bracketed utterance for one pass of the
Decomposer: segments of the target category are flagged spans, all other
segments are opaque text. -/
def passSegs (tgt : Category) (pairs : List (Category × List Char)) :
    List (Bool × List Char) :=
  pairs.map fun p => if p.1 == tgt then (true, p.2) else (false, wrapC p.1 p.2)

theorem passSegs_join (op cl : Char) (tgt : Category)
    (hwrap : ∀ s : List Char, wrapC tgt s = op :: (s ++ [cl])) :
    ∀ (pairs : List (Category × List Char)),
      segsJoin op cl (passSegs tgt pairs) = joinL (pairs.map fun p => wrapC p.1 p.2) := by
  intro pairs
  induction pairs with
  | nil => rfl
  | cons p rest ih =>
    obtain ⟨c, s⟩ := p
    by_cases h : (c == tgt) = true
    · have hc : c = tgt := eq_of_beq h
      subst hc
      rw [show passSegs c ((c, s) :: rest) = (true, s) :: passSegs c rest from by
        simp [passSegs]]
      show op :: (s ++ cl :: segsJoin op cl (passSegs c rest)) =
        wrapC c s ++ joinL (rest.map fun p => wrapC p.1 p.2)
      rw [ih, hwrap s]
      simp
    · have h' : c ≠ tgt := fun he => h (by rw [he]; exact beq_self_eq_true tgt)
      rw [show passSegs tgt ((c, s) :: rest) = (false, wrapC c s) :: passSegs tgt rest from by
        simp [passSegs, h']]
      show wrapC c s ++ segsJoin op cl (passSegs tgt rest) =
        wrapC c s ++ joinL (rest.map fun p => wrapC p.1 p.2)
      rw [ih]

theorem passSegs_flagged (tgt : Category) :
    ∀ (pairs : List (Category × List Char)),
      flaggedOf (passSegs tgt pairs) = (pairs.filter fun p => p.1 == tgt).map Prod.snd := by
  intro pairs
  induction pairs with
  | nil => rfl
  | cons p rest ih =>
    obtain ⟨c, s⟩ := p
    by_cases h : (c == tgt) = true
    · have hc : c = tgt := eq_of_beq h
      subst hc
      rw [show passSegs c ((c, s) :: rest) = (true, s) :: passSegs c rest from by
        simp [passSegs]]
      show s :: flaggedOf (passSegs c rest) = _
      rw [ih]
      simp [List.filter_cons]
    · have h' : c ≠ tgt := fun he => h (by rw [he]; exact beq_self_eq_true tgt)
      have hb : (c == tgt) = false := by simpa using h'
      rw [show passSegs tgt ((c, s) :: rest) = (false, wrapC c s) :: passSegs tgt rest from by
        simp [passSegs, h']]
      show flaggedOf (passSegs tgt rest) = _
      rw [ih]
      simp [List.filter_cons, hb]

theorem passSegs_unflagged (tgt : Category) :
    ∀ (pairs : List (Category × List Char)),
      unflaggedOf (passSegs tgt pairs) =
        (pairs.filter fun p => !(p.1 == tgt)).map fun p => wrapC p.1 p.2 := by
  intro pairs
  induction pairs with
  | nil => rfl
  | cons p rest ih =>
    obtain ⟨c, s⟩ := p
    by_cases h : (c == tgt) = true
    · have hc : c = tgt := eq_of_beq h
      subst hc
      rw [show passSegs c ((c, s) :: rest) = (true, s) :: passSegs c rest from by
        simp [passSegs]]
      show unflaggedOf (passSegs c rest) = _
      rw [ih]
      simp [List.filter_cons]
    · have h' : c ≠ tgt := fun he => h (by rw [he]; exact beq_self_eq_true tgt)
      have hb : (c == tgt) = false := by simpa using h'
      rw [show passSegs tgt ((c, s) :: rest) = (false, wrapC c s) :: passSegs tgt rest from by
        simp [passSegs, h']]
      show wrapC c s :: unflaggedOf (passSegs tgt rest) = _
      rw [ih]
      simp [List.filter_cons, hb]

theorem pass_extract (op cl : Char) (tgt : Category)
    (hwrap : ∀ s : List Char, wrapC tgt s = op :: (s ++ [cl]))
    (hcl : cl ∈ glyphChars)
    (hothers : ∀ (c : Category) (s : List Char), c ≠ tgt → glyphFree s = true →
      ∀ x ∈ wrapC c s, x ≠ op)
    (pairs : List (Category × List Char))
    (hp : ∀ p ∈ pairs, glyphFree p.2 = true ∧ nlFree p.2 = true) :
    findAllB op cl (joinL (pairs.map fun p => wrapC p.1 p.2)) =
        (pairs.filter fun p => p.1 == tgt).map Prod.snd
      ∧ removeAll op cl ((pairs.filter fun p => p.1 == tgt).map Prod.snd)
          (joinL (pairs.map fun p => wrapC p.1 p.2)) =
        joinL ((pairs.filter fun p => !(p.1 == tgt)).map fun p => wrapC p.1 p.2) := by
  have h1 : ∀ q ∈ passSegs tgt pairs, q.1 = true → ∀ c ∈ q.2, c ≠ cl ∧ c ≠ '\n' := by
    intro q hq hflag c hc
    obtain ⟨p, hpmem, hqe⟩ := List.mem_map.mp hq
    by_cases h : (p.1 == tgt) = true
    · simp only [if_pos h] at hqe
      cases hqe
      exact ⟨glyphFree_ne (hp p hpmem).1 hcl c hc, nlFree_mem (hp p hpmem).2 c hc⟩
    · simp only [if_neg h] at hqe
      cases hqe
      simp at hflag
  have h2 : ∀ q ∈ passSegs tgt pairs, q.1 = false → ∀ c ∈ q.2, c ≠ op := by
    intro q hq hflag c hc
    obtain ⟨p, hpmem, hqe⟩ := List.mem_map.mp hq
    by_cases h : (p.1 == tgt) = true
    · simp only [if_pos h] at hqe
      cases hqe
      simp at hflag
    · simp only [if_neg h] at hqe
      cases hqe
      have hneq : p.1 ≠ tgt := fun he => h (by rw [he]; exact beq_self_eq_true tgt)
      exact hothers p.1 p.2 hneq (hp p hpmem).1 c hc
  constructor
  · rw [← passSegs_join op cl tgt hwrap pairs, segsJoin_findAll op cl _ h1 h2,
      passSegs_flagged tgt pairs]
  · rw [← passSegs_join op cl tgt hwrap pairs, ← passSegs_flagged tgt pairs,
      segsJoin_remove op cl _ h1 h2, passSegs_unflagged tgt pairs]

theorem dropWhile_all (p : Char → Bool) (s : List Char) :
    (∀ x ∈ s.dropWhile p, p x = true) ↔ ∀ x ∈ s, p x = true := by
  constructor
  · intro h x hx
    have hx2 : x ∈ s.takeWhile p ++ s.dropWhile p := by
      rw [List.takeWhile_append_dropWhile]
      exact hx
    rcases List.mem_append.mp hx2 with h1 | h1
    · exact List.mem_takeWhile_imp h1
    · exact h x h1
  · intro h x hx
    exact h x ((List.dropWhile_sublist p).mem hx)

theorem pstrip_nil_iff (s : List Char) :
    pstrip s = [] ↔ ∀ c ∈ s, isPySpace c = true := by
  unfold pstrip
  rw [List.reverse_eq_nil_iff, List.dropWhile_eq_nil_iff]
  constructor
  · intro h
    rw [← dropWhile_all]
    intro x hx
    exact h x (List.mem_reverse.mpr hx)
  · intro h x hx
    exact (dropWhile_all isPySpace s).mpr h x (List.mem_reverse.mp hx)

theorem processBatchE_ok (ps : PatternSet) :
    ∀ (rows : List (List (List Char))) (outs : List (List Char)) (n : Nat)
      (r : List (List Char)),
      processBatchE ps rows = Except.ok outs → rows.get? n = some r →
      ∃ o, outs.get? n = some o ∧ analyzeE ps r = Except.ok o := by
  intro rows
  induction rows with
  | nil => intro outs n r _ hr; simp at hr
  | cons row rows' ih =>
    intro outs n r hp hr
    simp only [processBatchE] at hp
    cases ha : analyzeE ps row with
    | error e => rw [ha] at hp; exact Except.noConfusion hp
    | ok o =>
      rw [ha] at hp
      cases hrec : processBatchE ps rows' with
      | error e => rw [hrec] at hp; exact Except.noConfusion hp
      | ok os =>
        rw [hrec] at hp
        have houts : o :: os = outs := by injection hp
        subst houts
        cases n with
        | zero =>
          have : row = r := by
            rw [List.get?_cons_zero] at hr
            injection hr
          subst this
          exact ⟨o, rfl, ha⟩
        | succ n' =>
          rw [List.get?_cons_succ] at hr
          rw [List.get?_cons_succ]
          exact ih os n' r hrec hr

theorem patLoopE_ok (s : List Char) :
    ∀ (pats : List String), (pats.all fun p => (compile p).isSome) = true →
      patLoopE pats s = Except.ok (pats.any fun p => rmatch p s) := by
  intro pats
  induction pats with
  | nil => intro _; rfl
  | cons p ps ih =>
    intro hall
    have h1 : (compile p).isSome = true := by
      have := List.all_eq_true.mp hall p (List.mem_cons_self p ps)
      simpa using this
    have hrest : (ps.all fun q => (compile q).isSome) = true := by
      rw [List.all_eq_true] at hall ⊢
      exact fun q hq => hall q (List.mem_cons_of_mem p hq)
    obtain ⟨toks, htoks⟩ := Option.isSome_iff_exists.mp h1
    have hres : researchE p s = Except.ok (research toks s) := by
      unfold researchE
      rw [htoks]
    have hrm : rmatch p s = research toks s := by
      unfold rmatch
      rw [htoks]
    cases hmatch : research toks s with
    | true =>
      have hL : patLoopE (p :: ps) s = Except.ok true := by
        simp only [patLoopE, hres, hmatch]
      rw [hL, List.any_cons, hrm, hmatch, Bool.true_or]
    | false =>
      have hL : patLoopE (p :: ps) s = patLoopE ps s := by
        simp only [patLoopE, hres, hmatch]
      rw [hL, List.any_cons, hrm, hmatch, Bool.false_or]
      exact ih hrest

theorem classifySentE_ok (ps : PatternSet) (s : List Char)
    (hall : ((ps.examplePatterns ++ ps.ideaPatterns).all fun p => (compile p).isSome) = true) :
    classifySentE ps s = Except.ok (classifyPure ps s) := by
  rw [List.all_append, Bool.and_eq_true] at hall
  have hex := patLoopE_ok s ps.examplePatterns hall.1
  have hid := patLoopE_ok s ps.ideaPatterns hall.2
  cases hA : (ps.examplePatterns.any fun p => rmatch p s) with
  | true =>
    rw [hA] at hex
    simp [classifySentE, classifyPure, hex, hA]
  | false =>
    rw [hA] at hex
    cases hB : conceptHit ps.conceptDict s with
    | true => simp [classifySentE, classifyPure, hex, hA, hB]
    | false =>
      cases hC : (ps.ideaPatterns.any fun p => rmatch p s) with
      | true =>
        rw [hC] at hid
        simp [classifySentE, classifyPure, hex, hid, hA, hB, hC]
      | false =>
        rw [hC] at hid
        simp [classifySentE, classifyPure, hex, hid, hA, hB, hC]

theorem zipWith_wrap_eq :
    ∀ (cs : List Category) (ss : List (List Char)),
      List.zipWith wrapC cs ss = (cs.zip ss).map fun p => wrapC p.1 p.2 := by
  intro cs
  induction cs with
  | nil => intro ss; rfl
  | cons c cs' ih =>
    intro ss
    cases ss with
    | nil => rfl
    | cons s rest => simp [ih]

theorem propAux_take :
    ∀ (xs : List (List Char)) (i : Nat) (b : Bool) (ys : List (List Char)),
      (propAux i b (xs ++ ys)).take xs.length = propAux i b xs := by
  intro xs
  induction xs with
  | nil => intro i b ys; rfl
  | cons x xs' ih =>
    intro i b ys
    simp only [List.cons_append, propAux, List.length_cons, List.take_succ_cons,
      List.append_eq]
    rw [ih]

theorem findAllAux_infix (op cl : Char) :
    ∀ (fuel : Nat) (s e : List Char), e ∈ findAllAux op cl fuel s →
      (op :: (e ++ [cl])) <:+: s := by
  intro fuel
  induction fuel with
  | zero => intro s e h; rw [findAllAux] at h; exact absurd h (List.not_mem_nil e)
  | succ fuel ih =>
    intro s e h
    cases s with
    | nil => rw [findAllAux_nil] at h; exact absurd h (List.not_mem_nil e)
    | cons c rest =>
      simp only [findAllAux] at h
      by_cases hc : c = op
      · rw [if_pos hc] at h
        cases hscan : scanContent cl rest with
        | none =>
          rw [hscan] at h
          exact List.infix_cons (ih rest e h)
        | some pr =>
          obtain ⟨content, rem⟩ := pr
          rw [hscan] at h
          obtain ⟨hdec, _⟩ := scanContent_eq_some cl rest content rem hscan
          rcases List.mem_cons.mp h with he | he
          · subst he
            subst hc
            refine ⟨[], rem, ?_⟩
            rw [hdec]
            simp
          · obtain ⟨u, v, huv⟩ := ih rem e he
            subst hc
            refine ⟨c :: (content ++ cl :: u), v, ?_⟩
            rw [hdec, ← huv]
            simp
      · rw [if_neg hc] at h
        exact List.infix_cons (ih rest e h)

theorem findAllB_infix (op cl : Char) (s e : List Char) (h : e ∈ findAllB op cl s) :
    (op :: (e ++ [cl])) <:+: s :=
  findAllAux_infix op cl s.length s e h

theorem findAllB_no_open (op cl : Char) :
    ∀ (s : List Char), (∀ c ∈ s, c ≠ op) → findAllB op cl s = [] := by
  intro s
  induction s with
  | nil => intro _; rfl
  | cons c rest ih =>
    intro h
    rw [findAllB_cons, if_neg (h c (List.mem_cons_self c rest))]
    exact ih fun x hx => h x (List.mem_cons_of_mem c hx)

theorem filter_chain_concept (pairs : List (Category × List Char)) :
    ((pairs.filter fun p => !(p.1 == Category.exampleCat)).filter
        fun p => p.1 == Category.conceptCat) =
      pairs.filter fun p => p.1 == Category.conceptCat := by
  rw [List.filter_filter]
  apply List.filter_congr
  intro p _
  obtain ⟨c, s⟩ := p
  cases c <;> rfl

theorem filter_chain_idea (pairs : List (Category × List Char)) :
    (((pairs.filter fun p => !(p.1 == Category.exampleCat)).filter
        fun p => !(p.1 == Category.conceptCat)).filter
        fun p => p.1 == Category.ideaCat) =
      pairs.filter fun p => p.1 == Category.ideaCat := by
  rw [List.filter_filter, List.filter_filter]
  apply List.filter_congr
  intro p _
  obtain ⟨c, s⟩ := p
  cases c <;> rfl

theorem filter_chain_none (pairs : List (Category × List Char)) :
    (((pairs.filter fun p => !(p.1 == Category.exampleCat)).filter
        fun p => !(p.1 == Category.conceptCat)).filter
        fun p => !(p.1 == Category.ideaCat)) =
      pairs.filter fun p => p.1 == Category.noneCat := by
  rw [List.filter_filter, List.filter_filter]
  apply List.filter_congr
  intro p _
  obtain ⟨c, s⟩ := p
  cases c <;> rfl

theorem map_wrap_none (pairs : List (Category × List Char)) :
    ((pairs.filter fun p => p.1 == Category.noneCat).map fun p => wrapC p.1 p.2) =
      (pairs.filter fun p => p.1 == Category.noneCat).map Prod.snd := by
  apply List.map_congr_left
  intro p hp
  have hc : p.1 = Category.noneCat := eq_of_beq (List.mem_filter.mp hp).2
  obtain ⟨c, s⟩ := p
  simp only at hc
  subst hc
  rfl

/-- `decompose_utterance` exactly inverts the Bracketer on glyph-free,
newline-free sentences: each pass recovers the sentences of its category in
order, and the remainder is the concatenation of the unbracketed
sentences. -/
theorem decompose_wrapped (cats : List Category) (sents : List (List Char))
    (hg : ∀ s ∈ sents, glyphFree s = true ∧ nlFree s = true) :
    decompose (joinL (List.zipWith wrapC cats sents)) =
      ⟨selectCat Category.exampleCat cats sents,
       selectCat Category.conceptCat cats sents,
       selectCat Category.ideaCat cats sents,
       if pstrip (joinL (selectCat Category.noneCat cats sents)) = [] then []
       else [pstrip (joinL (selectCat Category.noneCat cats sents))]⟩ := by
  have hp : ∀ p ∈ cats.zip sents, glyphFree p.2 = true ∧ nlFree p.2 = true := by
    intro p hpm
    obtain ⟨c, s⟩ := p
    exact hg s (List.of_mem_zip hpm).2
  have hpass1 := pass_extract '[' ']' Category.exampleCat (fun _ => rfl) (by decide)
      wrap_ne_exOpen (cats.zip sents) hp
  have hp2 : ∀ p ∈ (cats.zip sents).filter fun p => !(p.1 == Category.exampleCat),
      glyphFree p.2 = true ∧ nlFree p.2 = true :=
    fun p hpm => hp p (List.mem_of_mem_filter hpm)
  have hpass2 := pass_extract '（' '）' Category.conceptCat (fun _ => rfl) (by decide)
      wrap_ne_coOpen _ hp2
  have hp3 : ∀ p ∈ ((cats.zip sents).filter fun p => !(p.1 == Category.exampleCat)).filter
      fun p => !(p.1 == Category.conceptCat), glyphFree p.2 = true ∧ nlFree p.2 = true :=
    fun p hpm => hp2 p (List.mem_of_mem_filter hpm)
  have hpass3 := pass_extract '〈' '〉' Category.ideaCat (fun _ => rfl) (by decide)
      wrap_ne_idOpen _ hp3
  have hT : joinL (List.zipWith wrapC cats sents) =
      joinL ((cats.zip sents).map fun p => wrapC p.1 p.2) := by rw [zipWith_wrap_eq]
  have hEx : exMatches (joinL (List.zipWith wrapC cats sents)) =
      selectCat Category.exampleCat cats sents := by
    unfold exMatches selectCat
    rw [hT]
    exact hpass1.1
  have hRem1 : rem1 (joinL (List.zipWith wrapC cats sents)) =
      joinL (((cats.zip sents).filter fun p => !(p.1 == Category.exampleCat)).map
        fun p => wrapC p.1 p.2) := by
    unfold rem1 exMatches
    rw [hT, hpass1.1]
    exact hpass1.2
  have hCo : coMatches (joinL (List.zipWith wrapC cats sents)) =
      selectCat Category.conceptCat cats sents := by
    unfold coMatches selectCat
    rw [hRem1, hpass2.1, filter_chain_concept]
  have hRem2 : rem2 (joinL (List.zipWith wrapC cats sents)) =
      joinL ((((cats.zip sents).filter fun p => !(p.1 == Category.exampleCat)).filter
        fun p => !(p.1 == Category.conceptCat)).map fun p => wrapC p.1 p.2) := by
    unfold rem2 coMatches
    rw [hRem1, hpass2.1]
    exact hpass2.2
  have hId : idMatches (joinL (List.zipWith wrapC cats sents)) =
      selectCat Category.ideaCat cats sents := by
    unfold idMatches selectCat
    rw [hRem2, hpass3.1, filter_chain_idea]
  have hRem3 : rem3 (joinL (List.zipWith wrapC cats sents)) =
      joinL (selectCat Category.noneCat cats sents) := by
    unfold rem3 idMatches selectCat
    rw [hRem2, hpass3.1]
    rw [hpass3.2, filter_chain_none, map_wrap_none]
  unfold decompose
  rw [hEx, hCo, hId, hRem3]

theorem finalCatsE_length (ps : PatternSet) (sents : List (List Char)) (cats : List Category)
    (h : finalCatsE ps sents = Except.ok cats) : cats.length = sents.length := by
  unfold finalCatsE at h
  cases hc : classifyCatsE ps sents with
  | error e => rw [hc] at h; exact Except.noConfusion h
  | ok cs =>
    rw [hc] at h
    have hcats : upgradeCats 0 false (cs.zip sents) = cats := by injection h
    have hlen : cs.length = sents.length := classifyCatsE_length ps sents cs hc
    rw [← hcats, upgradeCats_length, List.length_zip, hlen, Nat.min_self]

theorem analyzeSegsE_eq (ps : PatternSet) (sents : List (List Char))
    (hg : ∀ s ∈ sents, glyphFree s = true) :
    analyzeSegsE ps sents =
      (finalCatsE ps sents).map fun cats => List.zipWith wrapC cats sents := by
  unfold analyzeSegsE finalCatsE
  rw [classifyAllE_eq]
  cases h : classifyCatsE ps sents with
  | error e => rfl
  | ok cs =>
    simp only [Except.map]
    exact congrArg Except.ok (propAux_wrap cs sents 0 false hg)

theorem analyzeE_final (ps : PatternSet) (sents : List (List Char)) (ann : List Char)
    (hg : ∀ s ∈ sents, glyphFree s = true)
    (h : analyzeE ps sents = Except.ok ann) :
    ∃ cats, finalCatsE ps sents = Except.ok cats ∧
      ann = joinL (List.zipWith wrapC cats sents) := by
  unfold analyzeE at h
  cases hseg : analyzeSegsE ps sents with
  | error e => rw [hseg] at h; exact Except.noConfusion h
  | ok segs =>
    rw [hseg] at h
    have hann : joinL segs = ann := by injection h
    rw [analyzeSegsE_eq ps sents hg] at hseg
    cases hfc : finalCatsE ps sents with
    | error e => rw [hfc] at hseg; exact Except.noConfusion hseg
    | ok cats =>
      rw [hfc] at hseg
      simp only [Except.map] at hseg
      have hz : List.zipWith wrapC cats sents = segs := by injection hseg
      exact ⟨cats, rfl, by rw [← hann, ← hz]⟩

theorem analyzeSegsE_final (ps : PatternSet) (sents : List (List Char))
    (segs : List (List Char)) (hg : ∀ s ∈ sents, glyphFree s = true)
    (h : analyzeSegsE ps sents = Except.ok segs) :
    ∃ cats, finalCatsE ps sents = Except.ok cats ∧
      segs = List.zipWith wrapC cats sents := by
  rw [analyzeSegsE_eq ps sents hg] at h
  cases hfc : finalCatsE ps sents with
  | error e => rw [hfc] at h; exact Except.noConfusion h
  | ok cats =>
    rw [hfc] at h
    simp only [Except.map] at h
    have hz : List.zipWith wrapC cats sents = segs := by injection h
    exact ⟨cats, rfl, hz.symm⟩

theorem zipWith_wrap_get :
    ∀ (cs : List Category) (ss : List (List Char)) (n : Nat)
      (hn : n < (List.zipWith wrapC cs ss).length) (hc : n < cs.length)
      (hs : n < ss.length),
      (List.zipWith wrapC cs ss).get ⟨n, hn⟩ = wrapC (cs.get ⟨n, hc⟩) (ss.get ⟨n, hs⟩) := by
  intro cs
  induction cs with
  | nil => intro ss n hn hc hs; simp at hc
  | cons c cs' ih =>
    intro ss n hn hc hs
    cases ss with
    | nil => simp at hs
    | cons s ss' =>
      cases n with
      | zero => rfl
      | succ n' =>
        exact ih ss' n' (by simpa using hn) (by simpa using hc) (by simpa using hs)

/-- Claim C1: for every sentence and every `PatternSet` whose regexes
compile, the classifier evaluates the rules in the fixed order
Example > Concept > Idea > None with short-circuit on first success: the
category is Example exactly when some example pattern matches (regex
search), Concept exactly when no example pattern matches and some concept
term occurs as a substring, Idea exactly when neither fires and some idea
pattern matches, and None otherwise.  (Within a step the loop `patLoopE`
stops at the first matching pattern in declared order; since every match
in a step yields the same category, the step's outcome is equivalent to
the any-match condition stated here, with no scoring or longest-match
preference.) -/
theorem claim1_priority_order (ps : PatternSet) (s : List Char)
    (hc : ((ps.examplePatterns ++ ps.ideaPatterns).all fun p => (compile p).isSome) = true) :
    (classifySentE ps s = Except.ok Category.exampleCat ↔
      (ps.examplePatterns.any fun p => rmatch p s) = true)
    ∧ (classifySentE ps s = Except.ok Category.conceptCat ↔
      ((ps.examplePatterns.any fun p => rmatch p s) = false ∧
        conceptHit ps.conceptDict s = true))
    ∧ (classifySentE ps s = Except.ok Category.ideaCat ↔
      ((ps.examplePatterns.any fun p => rmatch p s) = false ∧
        conceptHit ps.conceptDict s = false ∧
        (ps.ideaPatterns.any fun p => rmatch p s) = true))
    ∧ (classifySentE ps s = Except.ok Category.noneCat ↔
      ((ps.examplePatterns.any fun p => rmatch p s) = false ∧
        conceptHit ps.conceptDict s = false ∧
        (ps.ideaPatterns.any fun p => rmatch p s) = false)) := by
  rw [classifySentE_ok ps s hc]
  unfold classifyPure
  cases hA : (ps.examplePatterns.any fun p => rmatch p s) with
  | true => simp [hA]
  | false =>
    cases hB : conceptHit ps.conceptDict s with
    | true => simp [hA, hB]
    | false =>
      cases hC : (ps.ideaPatterns.any fun p => rmatch p s) with
      | true => simp [hA, hB, hC]
      | false => simp [hA, hB, hC]

/-- Witness for C1: under a small concrete pattern set the first conjunct
holds at a concrete sentence. -/
theorem claim1_priority_order_witness :
    ((((⟨["例えば[、,]"], [("概念", ["数"])], ["思います"]⟩ : PatternSet).examplePatterns ++
        (⟨["例えば[、,]"], [("概念", ["数"])], ["思います"]⟩ : PatternSet).ideaPatterns).all
      fun p => (compile p).isSome) = true)
    ∧ (classifySentE ⟨["例えば[、,]"], [("概念", ["数"])], ["思います"]⟩ "例えば、数です。".toList =
        Except.ok Category.exampleCat ↔
      ((⟨["例えば[、,]"], [("概念", ["数"])], ["思います"]⟩ : PatternSet).examplePatterns.any
        fun p => rmatch p "例えば、数です。".toList) = true) :=
  ⟨by decide,
   (claim1_priority_order ⟨["例えば[、,]"], [("概念", ["数"])], ["思います"]⟩
     "例えば、数です。".toList (by decide)).1⟩

/-- Claim C3: `idea_context` is utterance-local and propagation is strictly
forward.  (1) In a batch, each successful row's annotated output is exactly
the output of analysing that row alone — nothing carries from one utterance
to the next, so the first sentence of utterance N+1 is never upgraded by
utterance N's trailing idea sentence.  (2) The propagation pass leaves the
first segment unchanged whatever the incoming context value is (the `i > 0`
guard, with `idea_context` initialised to `false`).  (3) Propagation is
strictly forward: the output on a prefix is unchanged by appending further
sentences, so a later sentence never changes an earlier one's category. -/
theorem claim3_idea_context_locality (ps : PatternSet) (rows : List (List (List Char)))
    (outs : List (List Char)) (h : processBatchE ps rows = Except.ok outs) :
    (∀ (n : Nat) (r : List (List Char)), rows.get? n = some r →
      ∃ o, outs.get? n = some o ∧ analyzeE ps r = Except.ok o)
    ∧ (∀ (b : Bool) (seg : List Char) (rest : List (List Char)),
        propAux 0 b (seg :: rest) = seg :: propAux 1 (ideaSignal seg) rest)
    ∧ (∀ (i : Nat) (b : Bool) (xs ys : List (List Char)),
        (propAux i b (xs ++ ys)).take xs.length = propAux i b xs) := by
  refine ⟨fun n r hr => processBatchE_ok ps rows outs n r h hr, ?_, ?_⟩
  · intro b seg rest
    rfl
  · intro i b xs ys
    exact propAux_take xs i b ys

/-- Witness for C3: a two-row batch whose first utterance ends in an
idea-signalling sentence (`考えた。` contains the signal `考え`); the second
utterance's output is that of analysing it alone, unbracketed. -/
theorem claim3_witness :
    processBatchE defaultPatternSet [["考えた。".toList], ["あ".toList]] =
        Except.ok ["（考えた。）".toList, "あ".toList]
    ∧ ∃ o, ["（考えた。）".toList, "あ".toList].get? 1 = some o ∧
        analyzeE defaultPatternSet ["あ".toList] = Except.ok o :=
  ⟨rfl,
   (claim3_idea_context_locality defaultPatternSet [["考えた。".toList], ["あ".toList]]
     ["（考えた。）".toList, "あ".toList] rfl).1 1 ["あ".toList] rfl⟩

/-- Claim C6 counterexample: the claim says a malformed pattern is skipped
and classification proceeds with the remaining valid patterns.  With the
example-pattern list `["[", "あ"]` (first pattern an unterminated class,
which `re.compile` rejects) the sentence `あ` is not classified at all:
`re.search` raises and the error propagates, whereas the claimed skipping
would have used the second, valid pattern and produced Example — which is
what the same set without the bad pattern yields. -/
theorem claim6_cex :
    classifySentE ⟨["[", "あ"], [], []⟩ "あ".toList = Except.error "["
    ∧ classifySentE ⟨["あ"], [], []⟩ "あ".toList = Except.ok Category.exampleCat :=
  ⟨rfl, rfl⟩

/-- Claim C6 (amended): a malformed regex pattern is not skipped: when it is
reached (here: first in the example list), `re.search` raises `re.error`
and the exception aborts classification of the sentence, hence of the whole
utterance analysis, for every non-empty sentence list. -/
theorem claim6_invalid_pattern_aborts (rest : List String)
    (dict : List (String × List String)) (ideas : List String)
    (s : List Char) (ss : List (List Char)) :
    analyzeE ⟨"[" :: rest, dict, ideas⟩ (s :: ss) = Except.error "[" := rfl

/-- Claim C7: the Decomposer is total — every operation in the body of
`decompose_utterance` (`re.findall` with the three fixed, valid patterns,
`str.replace`, `str.strip`) is a total string operation, so it never
raises, on every input including nested or nested-looking brackets — and
what it returns is a best-effort partial extraction: at most one "other"
entry, and every extracted span really occurs, with its delimiters, in the
text the corresponding pass scanned. -/
theorem claim7_best_effort (t : List Char) :
    (decompose t).others.length ≤ 1
    ∧ (∀ e ∈ (decompose t).exampleTexts, ('[' :: (e ++ [']'])) <:+: t)
    ∧ (∀ e ∈ (decompose t).concepts, ('（' :: (e ++ ['）'])) <:+: rem1 t)
    ∧ (∀ e ∈ (decompose t).ideas, ('〈' :: (e ++ ['〉'])) <:+: rem2 t) := by
  refine ⟨?_, ?_, ?_, ?_⟩
  · show (if pstrip (rem3 t) = [] then [] else [pstrip (rem3 t)]).length ≤ 1
    by_cases h : pstrip (rem3 t) = [] <;> simp [h]
  · intro e he
    exact findAllB_infix '[' ']' t e he
  · intro e he
    exact findAllB_infix '（' '）' (rem1 t) e he
  · intro e he
    exact findAllB_infix '〈' '〉' (rem2 t) e he

/-- Witness for C7 on a malformed input (an unterminated second bracket):
the extracted example span occurs verbatim in the input and at most one
other entry is produced. -/
theorem claim7_witness :
    (decompose "[a][b".toList).others.length ≤ 1
    ∧ ('[' :: ("a".toList ++ [']'])) <:+: "[a][b".toList :=
  ⟨(claim7_best_effort "[a][b".toList).1,
   (claim7_best_effort "[a][b".toList).2.1 "a".toList (by decide)⟩

/-- Claim C10: on input containing none of the six bracket glyphs the
Decomposer finds no spans — the example, concept and idea lists are empty —
and the other list is `[input.strip()]` when the input has any
non-whitespace character, and empty when the input is empty or
whitespace-only. -/
theorem claim10_no_glyph_decompose (t : List Char) (hg : glyphFree t = true) :
    decompose t = ⟨[], [], [], if t.all isPySpace then [] else [pstrip t]⟩ := by
  have hEx : exMatches t = [] :=
    findAllB_no_open '[' ']' t fun c hc => (glyphFree_mem hg c hc).1
  have hRem1 : rem1 t = t := by
    unfold rem1
    rw [hEx]
    rfl
  have hCo : coMatches t = [] := by
    unfold coMatches
    rw [hRem1]
    exact findAllB_no_open '（' '）' t fun c hc => (glyphFree_mem hg c hc).2.2.1
  have hRem2 : rem2 t = t := by
    unfold rem2
    rw [hCo, hRem1]
    rfl
  have hId : idMatches t = [] := by
    unfold idMatches
    rw [hRem2]
    exact findAllB_no_open '〈' '〉' t fun c hc => (glyphFree_mem hg c hc).2.2.2.2.1
  have hRem3 : rem3 t = t := by
    unfold rem3
    rw [hId, hRem2]
    rfl
  have hcond : (pstrip t = []) ↔ (t.all isPySpace = true) := by
    rw [pstrip_nil_iff]
    exact ⟨List.all_eq_true.mpr, List.all_eq_true.mp⟩
  have hif : (if pstrip t = [] then ([] : List (List Char)) else [pstrip t]) =
      (if t.all isPySpace then [] else [pstrip t]) := by
    by_cases h : pstrip t = []
    · rw [if_pos h, if_pos (hcond.mp h)]
    · rw [if_neg h, if_neg fun hh => h (hcond.mpr hh)]
  unfold decompose
  rw [hEx, hCo, hId, hRem3, hif]

/-- Witness for C10 at the glyph-free input `" あ "` (whitespace around one
non-whitespace character). -/
theorem claim10_witness :
    glyphFree " あ ".toList = true
    ∧ decompose " あ ".toList = ⟨[], [], [], ["あ".toList]⟩ := by
  refine ⟨by decide, ?_⟩
  rw [claim10_no_glyph_decompose " あ ".toList (by decide)]
  decide

/-- Claim C2 counterexample: for the glyph-free two-sentence utterance
`["あ", "い"]` (both sentences match nothing, so both stay unbracketed) the
annotated utterance is `あい`; decomposing it yields a single merged
"other" entry `あい`, so the concatenation of the four content lists is the
one-element list `["あい"]`, which is not a permutation of the original
two-sentence set `["あ", "い"]` — the original sentence set is not
reconstructed. -/
theorem claim2_roundtrip_cex :
    analyzeE defaultPatternSet ["あ".toList, "い".toList] = Except.ok "あい".toList
    ∧ decompose "あい".toList = ⟨[], [], [], ["あい".toList]⟩
    ∧ ¬ List.Perm
        ((decompose "あい".toList).exampleTexts ++ (decompose "あい".toList).concepts ++
          (decompose "あい".toList).ideas ++ (decompose "あい".toList).others)
        ["あ".toList, "い".toList] :=
  ⟨rfl, by decide, by decide⟩

/-- Claim C2 (amended): for every utterance whose sentences contain none of
the six bracket glyphs and no newline, decomposing the annotated utterance
recovers the Example, Concept and Idea sentences exactly, each list equal
to the final-category sentences in utterance order; the unbracketed (None)
sentences are not recovered individually — their concatenation, whitespace
stripped, forms the single "other" entry (empty when whitespace-only). -/
theorem claim2_roundtrip_amended (ps : PatternSet) (sents : List (List Char))
    (ann : List Char) (cats : List Category)
    (hg : (sents.all fun s => glyphFree s && nlFree s) = true)
    (h : analyzeE ps sents = Except.ok ann)
    (hcats : finalCatsE ps sents = Except.ok cats) :
    decompose ann =
      ⟨selectCat Category.exampleCat cats sents,
       selectCat Category.conceptCat cats sents,
       selectCat Category.ideaCat cats sents,
       if pstrip (joinL (selectCat Category.noneCat cats sents)) = [] then []
       else [pstrip (joinL (selectCat Category.noneCat cats sents))]⟩ := by
  have hg1 : ∀ s ∈ sents, glyphFree s = true ∧ nlFree s = true := by
    intro s hs
    have := List.all_eq_true.mp hg s hs
    exact (Bool.and_eq_true _ _).mp this
  obtain ⟨cats2, hfc, hann⟩ :=
    analyzeE_final ps sents ann (fun s hs => (hg1 s hs).1) h
  have hsame : cats2 = cats := by
    rw [hfc] at hcats
    injection hcats
  subst hsame
  rw [hann]
  exact decompose_wrapped cats2 sents hg1

/-- Witness for C2 (amended) at the utterance `["例えば、ぴ。", "あ"]`
(one Example sentence, one None sentence). -/
theorem claim2_roundtrip_witness :
    ((["例えば、ぴ。".toList, "あ".toList].all fun s => glyphFree s && nlFree s) = true)
    ∧ decompose "[例えば、ぴ。]あ".toList =
        ⟨["例えば、ぴ。".toList], [], [], ["あ".toList]⟩ := by
  refine ⟨by decide, ?_⟩
  have h := claim2_roundtrip_amended defaultPatternSet
    ["例えば、ぴ。".toList, "あ".toList] "[例えば、ぴ。]あ".toList
    [Category.exampleCat, Category.noneCat] (by decide) rfl rfl
  exact h.trans (by decide)

/-- Claim C4: for every utterance whose raw text contains no bracket
glyphs, each sentence in the annotated output carries exactly one of the
four mutually exclusive renderings — `[s]`, `（s）`, `〈s〉`, or `s`
unchanged — and that rendering is unique (no nesting, at most one
top-level bracket pair per sentence): classification applies at most one
bracket, and context propagation wraps only segments that received no
bracket. -/
theorem claim4_bracket_invariant (ps : PatternSet) (sents segs : List (List Char))
    (hg : (sents.all glyphFree) = true)
    (h : analyzeSegsE ps sents = Except.ok segs) :
    segs.length = sents.length ∧
      ∀ (n : Nat) (hn : n < segs.length) (hm : n < sents.length),
        ∃! c : Category, segs.get ⟨n, hn⟩ = wrapC c (sents.get ⟨n, hm⟩) := by
  have hg1 : ∀ s ∈ sents, glyphFree s = true := fun s hs => List.all_eq_true.mp hg s hs
  obtain ⟨cats, hfc, hsegs⟩ := analyzeSegsE_final ps sents segs hg1 h
  have hclen : cats.length = sents.length := finalCatsE_length ps sents cats hfc
  subst hsegs
  have hzlen : (List.zipWith wrapC cats sents).length = sents.length := by
    rw [List.length_zipWith, hclen, Nat.min_self]
  refine ⟨hzlen, ?_⟩
  intro n hn hm
  have hncat : n < cats.length := by
    rw [hclen]
    exact hm
  have hget := zipWith_wrap_get cats sents n hn hncat hm
  refine ⟨cats.get (Fin.mk n hncat), ?_, ?_⟩
  · exact hget
  · intro y hy
    exact wrapC_inj y (cats.get (Fin.mk n hncat)) (sents.get (Fin.mk n hm))
      (hg1 _ (List.get_mem sents n hm)) (hy.symm.trans hget)

/-- Witness for C4 at the glyph-free utterance `["例えば、ぴ。", "あ"]`. -/
theorem claim4_witness :
    ((["例えば、ぴ。".toList, "あ".toList].all glyphFree) = true)
    ∧ analyzeSegsE defaultPatternSet ["例えば、ぴ。".toList, "あ".toList] =
        Except.ok ["[例えば、ぴ。]".toList, "あ".toList]
    ∧ (["[例えば、ぴ。]".toList, "あ".toList].length =
        (["例えば、ぴ。".toList, "あ".toList] : List (List Char)).length ∧
      ∀ (n : Nat) (hn : n < (["[例えば、ぴ。]".toList, "あ".toList] : List (List Char)).length)
        (hm : n < (["例えば、ぴ。".toList, "あ".toList] : List (List Char)).length),
        ∃! c : Category,
          (["[例えば、ぴ。]".toList, "あ".toList] : List (List Char)).get ⟨n, hn⟩ =
            wrapC c ((["例えば、ぴ。".toList, "あ".toList] : List (List Char)).get ⟨n, hm⟩)) :=
  ⟨by decide, rfl,
   claim4_bracket_invariant defaultPatternSet ["例えば、ぴ。".toList, "あ".toList]
     ["[例えば、ぴ。]".toList, "あ".toList] (by decide) rfl⟩

/-- Claim C5 counterexample: on the input `。` the remainder after the three
extractions consists only of sentence-ending punctuation (no whitespace),
which satisfies the claim's "whitespace and the two sentence-ending
punctuation marks" condition, yet the other list is not empty — it is
`["。"]`, because the code only strips whitespace and tests truthiness. -/
theorem claim5_cex :
    ("。".toList.all fun c => isPySpace c || c == '。' || c == '、') = true
    ∧ (decompose "。".toList).others = ["。".toList]
    ∧ (decompose "。".toList).others ≠ [] :=
  ⟨by decide, by decide, by decide⟩

/-- Claim C5 (amended): after the three extractions the whitespace-stripped
remainder becomes the single "other" entry; the other list is empty exactly
when the remainder consists only of whitespace — a remainder made of
sentence-ending punctuation is kept, not dropped. -/
theorem claim5_other_entry (t : List Char) :
    ((decompose t).others = [] ↔ (rem3 t).all isPySpace = true)
    ∧ ((rem3 t).all isPySpace = false → (decompose t).others = [pstrip (rem3 t)]) := by
  have hiff : pstrip (rem3 t) = [] ↔ (rem3 t).all isPySpace = true := by
    rw [pstrip_nil_iff]
    exact ⟨List.all_eq_true.mpr, List.all_eq_true.mp⟩
  have hothers : (decompose t).others =
      if pstrip (rem3 t) = [] then [] else [pstrip (rem3 t)] := rfl
  constructor
  · rw [hothers]
    by_cases h : pstrip (rem3 t) = []
    · simp [h, hiff.mp h]
    · simp only [if_neg h]
      constructor
      · intro hcontra
        exact absurd hcontra (by simp)
      · intro hall
        exact absurd (hiff.mpr hall) h
  · intro hall
    rw [hothers, if_neg]
    intro hps
    rw [hiff.mp hps] at hall
    exact Bool.noConfusion hall

/-- Witness for C5 (amended) at the input `。x` (non-whitespace remainder). -/
theorem claim5_witness :
    (rem3 "。x".toList).all isPySpace = false
    ∧ (decompose "。x".toList).others = [pstrip (rem3 "。x".toList)] :=
  ⟨by decide, (claim5_other_entry "。x".toList).2 (by decide)⟩

/-- Claim C8 counterexample: on the two-sentence utterance
`["私は考えました。", "これは良い方法です。"]` the annotated output is
`[私は考えました。]〈これは良い方法です。〉`, not the claimed
`〈私は考えました。〉〈これは良い方法です。〉`: the first sentence matches
the example pattern `私は` (example patterns are checked before idea
patterns), so it is bracketed as Example, not Idea. -/
theorem claim8_cex :
    analyzeE defaultPatternSet ["私は考えました。".toList, "これは良い方法です。".toList] =
      Except.ok "[私は考えました。]〈これは良い方法です。〉".toList
    ∧ "[私は考えました。]〈これは良い方法です。〉".toList ≠
        "〈私は考えました。〉〈これは良い方法です。〉".toList :=
  ⟨rfl, by decide⟩

/-- Claim C8 (amended): under the default `PatternSet`, 「私は考えました。」
is classified Example (its substring `私は` is a default example pattern
and example patterns shadow the idea pattern `考え`), and
「これは良い方法です。」 is classified Idea directly by the idea pattern
`方法` — not by context propagation — so the annotated output is
`[私は考えました。]〈これは良い方法です。〉`. -/
theorem claim8_amended :
    rmatch "私は" "私は考えました。".toList = true
    ∧ classifySentE defaultPatternSet "私は考えました。".toList =
        Except.ok Category.exampleCat
    ∧ rmatch "方法" "これは良い方法です。".toList = true
    ∧ classifySentE defaultPatternSet "これは良い方法です。".toList =
        Except.ok Category.ideaCat
    ∧ analyzeE defaultPatternSet ["私は考えました。".toList, "これは良い方法です。".toList] =
        Except.ok "[私は考えました。]〈これは良い方法です。〉".toList :=
  ⟨by decide, rfl, by decide, rfl, rfl⟩

/-- Claim C9 counterexample: 「今日は三角形の面積について学びましょう。」
does match a default example pattern — `今日` — so its category is Example,
not None, and the bracketing step wraps it as
`[今日は三角形の面積について学びましょう。]` instead of leaving it
unchanged. -/
theorem claim9_cex :
    classifySentE defaultPatternSet "今日は三角形の面積について学びましょう。".toList =
      Except.ok Category.exampleCat
    ∧ Category.exampleCat ≠ Category.noneCat
    ∧ analyzeE defaultPatternSet ["今日は三角形の面積について学びましょう。".toList] =
        Except.ok "[今日は三角形の面積について学びましょう。]".toList
    ∧ "[今日は三角形の面積について学びましょう。]".toList ≠
        "今日は三角形の面積について学びましょう。".toList :=
  ⟨rfl, by decide, rfl, by decide⟩

/-- Claim C9 (amended): under the default `PatternSet` the sentence
「今日は三角形の面積について学びましょう。」 matches the example pattern
`今日`, so its category is Example and the annotated output wraps it in
square brackets. -/
theorem claim9_amended :
    rmatch "今日" "今日は三角形の面積について学びましょう。".toList = true
    ∧ classifySentE defaultPatternSet "今日は三角形の面積について学びましょう。".toList =
        Except.ok Category.exampleCat
    ∧ analyzeE defaultPatternSet ["今日は三角形の面積について学びましょう。".toList] =
        Except.ok "[今日は三角形の面積について学びましょう。]".toList :=
  ⟨by decide, rfl, rfl⟩

end Midfactor
